import Mathlib

/-!
Verification of the weekly allocation planner and hierarchy resolver of the
gestorProyectos dashboard.

The definitions below are shallow embeddings of the TypeScript source:
the auto-planning loop, `handleHoursChange` and `finalCalculatedPlan` of
`src/components/WeeklyPlannerView.tsx`, and the `findRootPbi` traversal and
`globalMetrics` reduction of the task-analysis view (`src/unnamed/part_002`).
Hours are modelled as natural numbers (the plan stores non-negative integer
hour counts; user edits go through `parseInt`), invested-hour sums as
rationals, and the mutable memo map of the resolver as explicitly threaded
state with a fuel parameter standing for the recursion budget.
-/

namespace GestorProyectos

/-- Loop body of the greedy scheduler, with an explicit fuel bound on the
iteration count (each iteration removes at least one pending hour once the
capacity is positive, so a fuel equal to the initial pending figure is always
sufficient; see `autoSchedule`). One unfolding performs
`const hoursThisWeek = Math.min(pendingHours, weeklyLoad); projectSchedule.push(hoursThisWeek); pendingHours -= hoursThisWeek;`
under the loop guard. -/
def autoScheduleGo (weeklyLoad : Nat) : Nat → Nat → List Nat
  | 0, _ => []
  | fuel + 1, pending =>
    if 0 < pending ∧ 0 < weeklyLoad then
      min pending weeklyLoad :: autoScheduleGo weeklyLoad fuel (pending - min pending weeklyLoad)
    else []

/-- Greedy schedule generation: embedding of the auto-planning loop of
`WeeklyPlannerView` (`if (pendingHours > 0 && weeklyLoad > 0) { while (pendingHours > 0) { ... } }`
else the empty schedule). The rebalancing tail of `handleHoursChange` runs the
identical loop under the identical guard. -/
def autoSchedule (pending weeklyLoad : Nat) : List Nat :=
  autoScheduleGo weeklyLoad pending pending

theorem autoSchedule_empty (p c : Nat) (h : p = 0 ∨ c = 0) : autoSchedule p c = [] := by
  unfold autoSchedule
  cases p with
  | zero => rfl
  | succ p =>
    simp only [autoScheduleGo]
    rw [if_neg (by omega)]

theorem autoScheduleGo_sum (c : Nat) (hc : 0 < c) :
    ∀ fuel p : Nat, p ≤ fuel → (autoScheduleGo c fuel p).sum = p := by
  intro fuel
  induction fuel with
  | zero =>
    intro p hp
    have h0 : p = 0 := by omega
    subst h0
    rfl
  | succ fuel ih =>
    intro p hp
    simp only [autoScheduleGo]
    by_cases h : 0 < p
    · rw [if_pos ⟨h, hc⟩, List.sum_cons, ih (p - min p c) (by omega)]
      omega
    · rw [if_neg (by omega)]
      simp only [List.sum_nil]
      omega

theorem autoSchedule_sum (p c : Nat) (hc : 0 < c) : (autoSchedule p c).sum = p :=
  autoScheduleGo_sum c hc p p le_rfl

theorem autoScheduleGo_length (c : Nat) (hc : 0 < c) :
    ∀ fuel p : Nat, p ≤ fuel → (autoScheduleGo c fuel p).length = (p + c - 1) / c := by
  intro fuel
  induction fuel with
  | zero =>
    intro p hp
    have h0 : p = 0 := by omega
    subst h0
    simp only [autoScheduleGo, List.length_nil]
    rw [Nat.div_eq_of_lt (by omega)]
  | succ fuel ih =>
    intro p hp
    simp only [autoScheduleGo]
    by_cases h : 0 < p
    · rw [if_pos ⟨h, hc⟩, List.length_cons, ih (p - min p c) (by omega)]
      rcases le_or_lt p c with hpc | hpc
      · have e1 : p - min p c + c - 1 = c - 1 := by omega
        rw [e1, Nat.div_eq_of_lt (by omega)]
        have h1 : 1 ≤ (p + c - 1) / c := (Nat.le_div_iff_mul_le hc).mpr (by omega)
        have h2 : (p + c - 1) / c < 2 := (Nat.div_lt_iff_lt_mul hc).mpr (by omega)
        omega
      · have e1 : p - min p c + c - 1 = p - 1 := by omega
        have e2 : p + c - 1 = (p - 1) + c := by omega
        rw [e1, e2, Nat.add_div_right _ hc]
    · rw [if_neg (by omega)]
      simp only [List.length_nil]
      have h0 : p = 0 := by omega
      subst h0
      rw [Nat.div_eq_of_lt (by omega)]

theorem autoSchedule_length (p c : Nat) (hc : 0 < c) :
    (autoSchedule p c).length = (p + c - 1) / c :=
  autoScheduleGo_length c hc p p le_rfl

/-- C1: for every pending and weeklyCapacity > 0, `autoSchedule` returns a
sequence summing to pending with length `ceil(pending / capacity)` (so the
empty sequence when pending is 0), and whenever pending = 0 or capacity = 0
(in particular capacity 0 with positive pending) it returns the empty
sequence. -/
theorem autoSchedule_spec (p c : Nat) :
    (0 < c → (autoSchedule p c).sum = p ∧ (autoSchedule p c).length = (p + c - 1) / c)
    ∧ (p = 0 ∨ c = 0 → autoSchedule p c = []) := by
  refine ⟨fun hc => ⟨autoSchedule_sum p c hc, autoSchedule_length p c hc⟩, autoSchedule_empty p c⟩

/-- Witness for C1 at pending = 100, capacity = 40 (sum 100, length 3) and at
pending = 5, capacity = 0 (empty). -/
theorem autoSchedule_spec_witness :
    ((0 : Nat) < 40 ∧ (autoSchedule 100 40).sum = 100 ∧ (autoSchedule 100 40).length = 3)
    ∧ autoSchedule 5 0 = [] := by
  refine ⟨⟨by decide, ?_, ?_⟩, ?_⟩
  · exact ((autoSchedule_spec 100 40).1 (by decide)).1
  · have h := ((autoSchedule_spec 100 40).1 (by decide)).2
    simpa using h
  · exact (autoSchedule_spec 5 0).2 (by decide)

/-- Loop body of the zero-padding step of `handleHoursChange`, with an
explicit fuel bound (each iteration grows the schedule by one entry, so
`weekIndex + 1` iterations always suffice; see `ensureLength`). -/
def ensureLengthGo : Nat → List Nat → Nat → List Nat
  | 0, sched, _ => sched
  | fuel + 1, sched, weekIndex =>
    if sched.length ≤ weekIndex then ensureLengthGo fuel (sched ++ [0]) weekIndex else sched

/-- Padding loop of `handleHoursChange`:
`while (currentSchedule.length <= weekIndex) { currentSchedule.push(0); }`. -/
def ensureLength (sched : List Nat) (weekIndex : Nat) : List Nat :=
  ensureLengthGo (weekIndex + 1) sched weekIndex

/-- Trailing-zero trim of `handleHoursChange`:
`while (finalSchedule.length > 0 && finalSchedule[finalSchedule.length - 1] === 0) { finalSchedule.pop(); }`. -/
def trimTrailingZeros (l : List Nat) : List Nat :=
  (l.reverse.dropWhile (fun h => h == 0)).reverse

/-- Input validation of `handleHoursChange`:
`const newHours = parseInt(hoursStr, 10); const validatedHours = isNaN(newHours) || newHours < 0 ? 0 : newHours;`.
The parse result is `none` when `parseInt` yields NaN. -/
def validatedHours : Option Int → Nat
  | none => 0
  | some v => if v < 0 then 0 else v.toNat

/-- Per-project body of the `setPlan` updater in `handleHoursChange`: pad the
schedule with zeros up to the edited week, overwrite the edited week,
recompute the remaining hours against the project's static pending figure,
regenerate the greedy tail under the `remainingToPlan > 0 && weeklyLoad > 0`
guard, and trim trailing zeros from the concatenation. -/
def editSchedule (originalPending weeklyLoad : Nat) (sched : List Nat) (weekIndex : Nat)
    (validated : Nat) : List Nat :=
  let updated := (ensureLength sched weekIndex).set weekIndex validated
  let totalPlannedSoFar := (updated.take (weekIndex + 1)).sum
  let remainingToPlan : Int := (originalPending : Int) - totalPlannedSoFar
  let rebalancedTail : List Nat :=
    if 0 < remainingToPlan ∧ 0 < weeklyLoad then autoSchedule remainingToPlan.toNat weeklyLoad
    else []
  trimTrailingZeros (updated.take (weekIndex + 1) ++ rebalancedTail)

/-- Full `handleHoursChange` pipeline for one project: parse validation
followed by the schedule edit. -/
def handleHoursChange (originalPending weeklyLoad : Nat) (sched : List Nat) (weekIndex : Nat)
    (parsed : Option Int) : List Nat :=
  editSchedule originalPending weeklyLoad sched weekIndex (validatedHours parsed)

/-- The plan state `Map<projectId, hoursPerWeek[]>`, as an association list in
insertion order. -/
abbrev Plan := List (Nat × List Nat)

/-- Lookup `newPlan.get(projectId) || []`. -/
def planGet (plan : Plan) (projectId : Nat) : List Nat :=
  ((plan.find? (fun e => e.1 == projectId)).map (fun e => e.2)).getD []

/-- Update `newPlan.set(projectId, finalSchedule)`: replace the entry when the
key is present, append it otherwise. -/
def planSet : Plan → Nat → List Nat → Plan
  | [], k, v => [(k, v)]
  | e :: rest, k, v => if e.1 = k then (k, v) :: rest else e :: planSet rest k v

/-- A developer's open project as seen by the planner: id, static
`Custom.Hspendientes` pending-hours figure and `Custom.Cargasemanal` weekly
capacity (both already defaulted to 0 by the `|| 0` reads). -/
structure Project where
  id : Nat
  originalPending : Nat
  weeklyLoad : Nat
deriving Repr, DecidableEq

/-- The `setPlan` updater of `handleHoursChange`: look the project up in
`devProjects` (returning the plan unchanged when absent), edit that project's
schedule and replace only its entry in the plan map. -/
def applyEdit (devProjects : List Project) (plan : Plan) (projectId weekIndex : Nat)
    (parsed : Option Int) : Plan :=
  match devProjects.find? (fun p => p.id == projectId) with
  | none => plan
  | some project =>
      planSet plan projectId
        (handleHoursChange project.originalPending project.weeklyLoad
          (planGet plan projectId) weekIndex parsed)

theorem ensureLengthGo_eq :
    ∀ (fuel : Nat) (sched : List Nat) (wi : Nat), wi + 1 - sched.length ≤ fuel →
      ensureLengthGo fuel sched wi = sched ++ List.replicate (wi + 1 - sched.length) 0 := by
  intro fuel
  induction fuel with
  | zero =>
    intro sched wi hk
    have h0 : wi + 1 - sched.length = 0 := by omega
    rw [h0, List.replicate_zero, List.append_nil]
    rfl
  | succ fuel ih =>
    intro sched wi hk
    simp only [ensureLengthGo]
    by_cases h : sched.length ≤ wi
    · rw [if_pos h, ih (sched ++ [0]) wi (by simp; omega), List.append_assoc]
      congr 1
      simp only [List.length_append, List.length_cons, List.length_nil]
      have h1 : wi + 1 - sched.length = (wi + 1 - (sched.length + 1)) + 1 := by omega
      rw [h1, List.replicate_succ]
      rfl
    · rw [if_neg h]
      have h0 : wi + 1 - sched.length = 0 := by omega
      rw [h0, List.replicate_zero, List.append_nil]

theorem ensureLength_eq (sched : List Nat) (wi : Nat) :
    ensureLength sched wi = sched ++ List.replicate (wi + 1 - sched.length) 0 :=
  ensureLengthGo_eq (wi + 1) sched wi (by omega)

theorem length_ensureLength (sched : List Nat) (wi : Nat) :
    (ensureLength sched wi).length = max sched.length (wi + 1) := by
  rw [ensureLength_eq]
  simp only [List.length_append, List.length_replicate]
  omega

theorem sum_dropWhile_zero (l : List Nat) : (l.dropWhile (fun h => h == 0)).sum = l.sum := by
  induction l with
  | nil => rfl
  | cons a l ih =>
    by_cases h : a = 0
    · subst h
      simpa using ih
    · simp [List.dropWhile_cons, h]

theorem sum_trimTrailingZeros (l : List Nat) : (trimTrailingZeros l).sum = l.sum := by
  unfold trimTrailingZeros
  rw [List.sum_reverse, sum_dropWhile_zero, List.sum_reverse]

theorem editSchedule_sum (op wl : Nat) (sched : List Nat) (wi v : Nat) (hwl : 0 < wl) :
    (editSchedule op wl sched wi v).sum =
      max ((((ensureLength sched wi).set wi v).take (wi + 1)).sum) op := by
  simp only [editSchedule]
  rw [sum_trimTrailingZeros, List.sum_append]
  by_cases h : 0 < (op : Int) - ((((ensureLength sched wi).set wi v).take (wi + 1)).sum : Nat)
  · rw [if_pos ⟨h, hwl⟩, autoSchedule_sum _ _ hwl]
    omega
  · rw [if_neg (by tauto)]
    simp only [List.sum_nil]
    omega

/-- C2: every edit produces the padded-and-overwritten prefix through the
edited week, followed by a greedy tail regenerated from
`originalPending - sum(prefix)` exactly when that remainder is positive and
the capacity is positive (empty tail otherwise), with trailing zeros trimmed;
in particular editing week 0 of the schedule [40,40,20] (pending 100,
capacity 40) to 10 yields [10,40,40,10] with sum 100. -/
theorem edit_rebalance_spec :
    (∀ (op wl : Nat) (sched : List Nat) (wi v : Nat),
      editSchedule op wl sched wi v =
        trimTrailingZeros
          ((((sched ++ List.replicate (wi + 1 - sched.length) 0).set wi v).take (wi + 1)) ++
            (if 0 < (op : Int) -
                  (((((sched ++ List.replicate (wi + 1 - sched.length) 0).set wi v).take
                      (wi + 1)).sum : Nat) : Int) ∧ 0 < wl
             then
               autoSchedule
                 ((op : Int) -
                    (((((sched ++ List.replicate (wi + 1 - sched.length) 0).set wi v).take
                        (wi + 1)).sum : Nat) : Int)).toNat wl
             else [])))
    ∧ planGet (applyEdit [⟨7, 100, 40⟩] [(7, [40, 40, 20])] 7 0 (some 10)) 7 = [10, 40, 40, 10]
    ∧ (planGet (applyEdit [⟨7, 100, 40⟩] [(7, [40, 40, 20])] 7 0 (some 10)) 7).sum = 100 := by
  refine ⟨?_, by decide, by decide⟩
  intro op wl sched wi v
  simp only [editSchedule, ensureLength_eq]

/-- C3 counterexample: with weekly capacity 0, pending 10 and an edit placing
5 hours in week 0 of the empty schedule, the final sum is 5, not
`plannedThroughEdit + max(0, remaining) = 10`. -/
theorem edit_sum_invariant_counterexample :
    ¬ (((editSchedule 10 0 [] 0 5).sum : Int) =
        ((((ensureLength [] 0).set 0 5).take 1).sum : Int) +
          max 0 ((10 : Int) - ((((ensureLength [] 0).set 0 5).take 1).sum : Int))) := by
  decide

/-- C3 (amended): when the project's weekly capacity is positive, the edited
schedule's sum equals `plannedThroughEdit + max(0, remaining)`, which equals
`max(plannedThroughEdit, originalPendingHours)`. -/
theorem edit_sum_invariant (op wl : Nat) (sched : List Nat) (wi v : Nat) (hwl : 0 < wl) :
    ((editSchedule op wl sched wi v).sum : Int) =
        ((((ensureLength sched wi).set wi v).take (wi + 1)).sum : Int) +
          max 0 ((op : Int) - ((((ensureLength sched wi).set wi v).take (wi + 1)).sum : Int))
    ∧ (editSchedule op wl sched wi v).sum =
        max ((((ensureLength sched wi).set wi v).take (wi + 1)).sum) op := by
  have h := editSchedule_sum op wl sched wi v hwl
  refine ⟨?_, h⟩
  rw [h]
  push_cast [Nat.cast_max]
  omega

/-- Witness for C3 (amended) at pending 100, capacity 40, schedule [40,40,20],
editing week 0 to 10: final sum 100 = max(10, 100). -/
theorem edit_sum_invariant_witness :
    (0 : Nat) < 40 ∧
      (((editSchedule 100 40 [40, 40, 20] 0 10).sum : Int) =
          ((((ensureLength [40, 40, 20] 0).set 0 10).take 1).sum : Int) +
            max 0 ((100 : Int) - ((((ensureLength [40, 40, 20] 0).set 0 10).take 1).sum : Int))
        ∧ (editSchedule 100 40 [40, 40, 20] 0 10).sum =
            max ((((ensureLength [40, 40, 20] 0).set 0 10).take 1).sum) 100) :=
  ⟨by decide, edit_sum_invariant 100 40 [40, 40, 20] 0 10 (by decide)⟩

theorem getD_set_self :
    ∀ (l : List Nat) (i v : Nat), i < l.length → (l.set i v).getD i 0 = v := by
  intro l
  induction l with
  | nil =>
    intro i v h
    simp at h
  | cons a l ih =>
    intro i v h
    cases i with
    | zero => rfl
    | succ i =>
      simp only [List.set_cons_succ, List.getD_cons_succ]
      exact ih i v (by simpa using h)

/-- C8: non-numeric input (NaN parse) stores 0, the stored value in the edited
week is `max(0, parsedValue)` (so negative input stores 0), and the edit is
never rejected: `handleHoursChange` always proceeds into the re-balancing edit
with the clamped value. -/
theorem input_clamping_spec :
    validatedHours none = 0
    ∧ (∀ v : Int, (validatedHours (some v) : Int) = max 0 v)
    ∧ (∀ (op wl : Nat) (sched : List Nat) (wi : Nat) (parsed : Option Int),
        handleHoursChange op wl sched wi parsed =
          editSchedule op wl sched wi (validatedHours parsed))
    ∧ (∀ (sched : List Nat) (wi v : Nat),
        ((ensureLength sched wi).set wi v).getD wi 0 = v) := by
  refine ⟨rfl, ?_, fun _ _ _ _ _ => rfl, ?_⟩
  · intro v
    simp only [validatedHours]
    split
    · next h =>
      simp only [Nat.cast_zero]
      omega
    · next h =>
      omega
  · intro sched wi v
    apply getD_set_self
    rw [length_ensureLength]
    omega

theorem planGet_cons (e : Nat × List Nat) (rest : Plan) (id : Nat) :
    planGet (e :: rest) id = if e.1 = id then e.2 else planGet rest id := by
  by_cases h : e.1 = id
  · rw [if_pos h]
    simp [planGet, List.find?_cons_of_pos, h]
  · rw [if_neg h]
    unfold planGet
    rw [List.find?_cons_of_neg]
    simpa using h

theorem planGet_planSet_ne (plan : Plan) (k id : Nat) (v : List Nat) (hne : id ≠ k) :
    planGet (planSet plan k v) id = planGet plan id := by
  induction plan with
  | nil =>
    show planGet [(k, v)] id = planGet [] id
    rw [planGet_cons, if_neg (fun h => hne h.symm)]
  | cons e rest ih =>
    simp only [planSet]
    by_cases h : e.1 = k
    · rw [if_pos h, planGet_cons, planGet_cons,
        if_neg (fun hh => hne hh.symm), if_neg (fun hh => hne (h ▸ hh).symm)]
    · rw [if_neg h, planGet_cons, planGet_cons, ih]

/-- C9: an edit replaces only the edited project's entry in the plan map; the
schedule of every other project is unchanged. -/
theorem edit_frame (devProjects : List Project) (plan : Plan) (projectId weekIndex : Nat)
    (parsed : Option Int) (id : Nat) (hne : id ≠ projectId) :
    planGet (applyEdit devProjects plan projectId weekIndex parsed) id = planGet plan id := by
  unfold applyEdit
  cases devProjects.find? (fun p => p.id == projectId) with
  | none => rfl
  | some project => exact planGet_planSet_ne plan projectId id _ hne

/-- Witness for C9: editing project 7 leaves project 1's schedule untouched. -/
theorem edit_frame_witness :
    (1 : Nat) ≠ 7
    ∧ planGet (applyEdit [⟨7, 100, 40⟩] [(7, [40, 40, 20]), (1, [5])] 7 0 (some 10)) 1 =
        planGet [(7, [40, 40, 20]), (1, [5])] 1 :=
  ⟨by decide, edit_frame [⟨7, 100, 40⟩] [(7, [40, 40, 20]), (1, [5])] 7 0 (some 10) 1 (by decide)⟩

/-- Display bound of the planner table:
`if (plan.size === 0) return 4; return Math.max(4, ...lengths);`. -/
def maxWeeks (plan : Plan) : Nat :=
  if plan.length = 0 then 4
  else max 4 ((plan.map (fun e => e.2.length)).foldr max 0)

/-- One week row of `finalCalculatedPlan`: week index, the per-project
assignments pushed for that week, and the aggregated total. The calendar
dates are display-only formatting and are omitted. -/
structure CalculatedWeek where
  weekIndex : Nat
  projects : List (Nat × Nat)
  totalHours : Nat
deriving Repr, DecidableEq

/-- Projects contributing to week `i`:
`plan.forEach(...)` pushing `(projectId, schedule[i] || 0)` whenever the hours
are positive and the project is found among the developer's projects. -/
def projectsInWeek (projectIds : List Nat) (plan : Plan) (i : Nat) : List (Nat × Nat) :=
  plan.filterMap fun e =>
    if 0 < e.2.getD i 0 ∧ e.1 ∈ projectIds then some (e.1, e.2.getD i 0) else none

/-- The `finalCalculatedPlan` projection: materialize `maxWeeks` candidate
rows and keep a row when it has a contributing project or its index is below
the minimum-4 display floor
(`if (projectsInWeek.length > 0 || i < 4) { weeksData.push(...) }`). -/
def finalCalculatedPlan (projectIds : List Nat) (plan : Plan) : List CalculatedWeek :=
  (List.range (maxWeeks plan)).filterMap fun i =>
    if 0 < (projectsInWeek projectIds plan i).length ∨ i < 4 then
      some ⟨i, projectsInWeek projectIds plan i,
        ((projectsInWeek projectIds plan i).map (fun q => q.2)).sum⟩
    else none

theorem le_foldr_max {l : List Nat} {x : Nat} (h : x ∈ l) : x ≤ l.foldr max 0 := by
  induction l with
  | nil => cases h
  | cons a l ih =>
    rcases List.mem_cons.mp h with rfl | h
    · exact le_max_left _ _
    · exact le_trans (ih h) (le_max_right _ _)

theorem getD_pos_lt_length {l : List Nat} {i : Nat} (h : 0 < l.getD i 0) : i < l.length := by
  by_contra hc
  push_neg at hc
  rw [List.getD_eq_default _ _ hc] at h
  omega

theorem maxWeeks_eq (plan : Plan) :
    maxWeeks plan = max 4 ((plan.map (fun e => e.2.length)).foldr max 0) := by
  unfold maxWeeks
  cases plan with
  | nil => simp
  | cons e rest => rw [if_neg (by simp)]

theorem four_le_maxWeeks (plan : Plan) : 4 ≤ maxWeeks plan := by
  rw [maxWeeks_eq]
  exact le_max_left _ _

theorem schedLen_le_maxWeeks {plan : Plan} {e : Nat × List Nat} (he : e ∈ plan) :
    e.2.length ≤ maxWeeks plan := by
  rw [maxWeeks_eq]
  exact le_trans (le_foldr_max (List.mem_map_of_mem (fun e => e.2.length) he)) (le_max_right _ _)

theorem projectsInWeek_cons (projectIds : List Nat) (e : Nat × List Nat) (rest : Plan) (i : Nat) :
    projectsInWeek projectIds (e :: rest) i =
      (if 0 < e.2.getD i 0 ∧ e.1 ∈ projectIds then [(e.1, e.2.getD i 0)] else []) ++
        projectsInWeek projectIds rest i := by
  simp only [projectsInWeek, List.filterMap_cons]
  by_cases h : 0 < e.2.getD i 0 ∧ e.1 ∈ projectIds
  · rw [if_pos h, if_pos h]
    rfl
  · rw [if_neg h, if_neg h]
    rfl

theorem projectsInWeek_sum (projectIds : List Nat) (plan : Plan) (i : Nat)
    (hids : ∀ e ∈ plan, e.1 ∈ projectIds) :
    ((projectsInWeek projectIds plan i).map (fun q => q.2)).sum
      = (plan.map (fun e => e.2.getD i 0)).sum := by
  induction plan with
  | nil => rfl
  | cons e rest ih =>
    have he : e.1 ∈ projectIds := hids e (List.mem_cons_self _ _)
    have hrest : ∀ x ∈ rest, x.1 ∈ projectIds := fun x hx => hids x (List.mem_cons_of_mem _ hx)
    rw [projectsInWeek_cons]
    by_cases h : 0 < e.2.getD i 0
    · rw [if_pos ⟨h, he⟩]
      simp only [List.map_append, List.sum_append, List.map_cons, List.map_nil,
        List.sum_cons, List.sum_nil, Nat.add_zero]
      rw [ih hrest]
    · have h0 : e.2.getD i 0 = 0 := by omega
      rw [if_neg (by tauto)]
      simp only [List.nil_append, List.map_cons, List.sum_cons, h0, Nat.zero_add]
      exact ih hrest

/-- C7: the projection materializes `max(4, longest schedule)` candidate
rows; week `i` is emitted iff `i < 4` or some project allocates non-zero
hours at index `i`; and each emitted week's total is the sum over all
projects of the hours at that index (0 when a schedule is too short). -/
theorem calendar_projection_spec (projectIds : List Nat) (plan : Plan)
    (hids : ∀ e ∈ plan, e.1 ∈ projectIds) :
    maxWeeks plan = max 4 ((plan.map (fun e => e.2.length)).foldr max 0)
    ∧ (∀ i : Nat, (∃ w ∈ finalCalculatedPlan projectIds plan, w.weekIndex = i)
        ↔ (i < 4 ∨ ∃ e ∈ plan, 0 < e.2.getD i 0))
    ∧ (∀ w ∈ finalCalculatedPlan projectIds plan,
        w.totalHours = (plan.map (fun e => e.2.getD w.weekIndex 0)).sum) := by
  refine ⟨maxWeeks_eq plan, ?_, ?_⟩
  · intro i
    constructor
    · rintro ⟨w, hw, rfl⟩
      obtain ⟨a, _ha, hfa⟩ := List.mem_filterMap.mp hw
      by_cases hc : 0 < (projectsInWeek projectIds plan a).length ∨ a < 4
      · rw [if_pos hc] at hfa
        obtain rfl : w = ⟨a, projectsInWeek projectIds plan a,
            ((projectsInWeek projectIds plan a).map (fun q => q.2)).sum⟩ :=
          (Option.some_injective _ hfa).symm
        rcases hc with hlen | hlt
        · right
          obtain ⟨q, hq⟩ := List.exists_mem_of_length_pos hlen
          obtain ⟨e, he, hfe⟩ := List.mem_filterMap.mp hq
          by_cases hcond : 0 < e.2.getD a 0 ∧ e.1 ∈ projectIds
          · exact ⟨e, he, hcond.1⟩
          · rw [if_neg hcond] at hfe
            cases hfe
        · left
          exact hlt
      · rw [if_neg hc] at hfa
        cases hfa
    · intro h
      have hi : i < maxWeeks plan := by
        rcases h with h4 | ⟨e, he, hpos⟩
        · have := four_le_maxWeeks plan
          omega
        · have h1 : i < e.2.length := getD_pos_lt_length hpos
          have h2 := schedLen_le_maxWeeks he
          omega
      have hcond : 0 < (projectsInWeek projectIds plan i).length ∨ i < 4 := by
        rcases h with h4 | ⟨e, he, hpos⟩
        · right
          exact h4
        · left
          have hq : (e.1, e.2.getD i 0) ∈ projectsInWeek projectIds plan i :=
            List.mem_filterMap.mpr ⟨e, he, if_pos ⟨hpos, hids e he⟩⟩
          exact List.length_pos.mpr (List.ne_nil_of_mem hq)
      refine ⟨⟨i, projectsInWeek projectIds plan i,
        ((projectsInWeek projectIds plan i).map (fun q => q.2)).sum⟩, ?_, rfl⟩
      exact List.mem_filterMap.mpr ⟨i, List.mem_range.mpr hi, if_pos hcond⟩
  · intro w hw
    obtain ⟨a, _ha, hfa⟩ := List.mem_filterMap.mp hw
    by_cases hc : 0 < (projectsInWeek projectIds plan a).length ∨ a < 4
    · rw [if_pos hc] at hfa
      obtain rfl : w = ⟨a, projectsInWeek projectIds plan a,
          ((projectsInWeek projectIds plan a).map (fun q => q.2)).sum⟩ :=
        (Option.some_injective _ hfa).symm
      exact projectsInWeek_sum projectIds plan a hids
    · rw [if_neg hc] at hfa
      cases hfa

/-- Witness for C7 on a one-project plan with schedule [40,40,20]. -/
theorem calendar_projection_spec_witness :
    (∀ e ∈ ([(1, [40, 40, 20])] : Plan), e.1 ∈ [1])
    ∧ (maxWeeks [(1, [40, 40, 20])] =
          max 4 ((([(1, [40, 40, 20])] : Plan).map (fun e => e.2.length)).foldr max 0)
        ∧ (∀ i : Nat, (∃ w ∈ finalCalculatedPlan [1] [(1, [40, 40, 20])], w.weekIndex = i)
            ↔ (i < 4 ∨ ∃ e ∈ ([(1, [40, 40, 20])] : Plan), 0 < e.2.getD i 0))
        ∧ (∀ w ∈ finalCalculatedPlan [1] [(1, [40, 40, 20])],
            w.totalHours = (([(1, [40, 40, 20])] : Plan).map (fun e => e.2.getD w.weekIndex 0)).sum)) :=
  ⟨by decide, calendar_projection_spec [1] [(1, [40, 40, 20])] (by decide)⟩

/-- A work item as consumed by the hierarchy resolver: id, `System.WorkItemType`,
optional `System.Parent` reference and `System.Title`. -/
structure WItem where
  id : Nat
  itemType : String
  parentId : Option Nat
  title : String
deriving Repr, DecidableEq

/-- The configured root type of the traversal in `findRootPbi`. -/
def rootType : String := "Product Backlog Item"

/-- Lookup in `allItemsById` (`Map<number, WorkItem>` keyed by `item.id`,
populated once per batch; ids are unique per the data model, so the first
match is the map entry). -/
def lookupItem (items : List WItem) (i : Nat) : Option WItem :=
  items.find? (fun item => item.id == i)

/-- Memo-free reference semantics of the `findRootPbi` walk, with a fuel
budget for the recursion: `none` means the budget ran out before the walk
finished, `some r` that the walk finished with answer `r` (`r = none` is the
walk's null result). The memoization of the source is performance state and
is modelled separately by `findRootPbi` below. -/
def findRootSpec (items : List WItem) : Nat → Nat → Option (Option WItem)
  | 0, _ => none
  | fuel + 1, itemId =>
    match lookupItem items itemId with
    | none => some none
    | some item =>
      if item.itemType = rootType then some (some item)
      else
        match item.parentId with
        | none => some none
        | some parentId => findRootSpec items fuel parentId

/-- The `traversalMemo` map of the batch, as an association list where the
most recent `set` shadows older entries. -/
abbrev Memo := List (Nat × Option WItem)

/-- Lookup `traversalMemo.get(itemId)` (with `traversalMemo.has(itemId)`
distinguishing a memoized null from a miss). -/
def memoLookup (memo : Memo) (i : Nat) : Option (Option WItem) :=
  ((memo.find? (fun e => e.1 == i)).map (fun e => e.2))

/-- The `findRootPbi` closure of the hierarchy-mapping pass, with the mutable
`traversalMemo` threaded explicitly and a fuel budget for the recursion
(`none` in the first component means the budget ran out):
memo hit returns the memoized answer; a missing id memoizes and returns null;
a root-typed item memoizes and returns itself; an item with no parent
memoizes and returns null; otherwise the walk recurses on the parent and
memoizes the returned answer. -/
def findRootPbi (items : List WItem) : Nat → Nat → Memo → Option (Option WItem) × Memo
  | 0, _, memo => (none, memo)
  | fuel + 1, itemId, memo =>
    match memoLookup memo itemId with
    | some r => (some r, memo)
    | none =>
      match lookupItem items itemId with
      | none => (some none, (itemId, none) :: memo)
      | some item =>
        if item.itemType = rootType then (some (some item), (itemId, some item) :: memo)
        else
          match item.parentId with
          | none => (some none, (itemId, none) :: memo)
          | some parentId =>
            match findRootPbi items fuel parentId memo with
            | (none, m) => (none, m)
            | (some r, m) => (some r, (itemId, r) :: m)

/-- A memo state is sound when every entry records an answer the memo-free
walk produces for that id (as after any prefix of a batch pass). -/
def MemoOK (items : List WItem) (memo : Memo) : Prop :=
  ∀ i r, memoLookup memo i = some r → ∃ n, findRootSpec items n i = some r

theorem memoOK_nil (items : List WItem) : MemoOK items [] := by
  intro i r h
  simp [memoLookup] at h

theorem memoLookup_cons (a : Nat) (b : Option WItem) (memo : Memo) (j : Nat) :
    memoLookup ((a, b) :: memo) j = if a = j then some b else memoLookup memo j := by
  by_cases h : a = j
  · rw [if_pos h]
    simp [memoLookup, List.find?_cons_of_pos, h]
  · rw [if_neg h]
    unfold memoLookup
    rw [List.find?_cons_of_neg]
    simpa using h

theorem memoOK_cons {items : List WItem} {memo : Memo} (hm : MemoOK items memo)
    {i : Nat} {r : Option WItem} (hr : ∃ n, findRootSpec items n i = some r) :
    MemoOK items ((i, r) :: memo) := by
  intro j r' hj
  rw [memoLookup_cons] at hj
  by_cases h : i = j
  · rw [if_pos h] at hj
    obtain rfl : r = r' := Option.some_injective _ hj
    exact h ▸ hr
  · rw [if_neg h] at hj
    exact hm j r' hj

theorem findRootSpec_succ_absent {items : List WItem} {i : Nat} (fuel : Nat)
    (hl : lookupItem items i = none) : findRootSpec items (fuel + 1) i = some none := by
  simp [findRootSpec, hl]

theorem findRootSpec_succ_root {items : List WItem} {i : Nat} {item : WItem} (fuel : Nat)
    (hl : lookupItem items i = some item) (ht : item.itemType = rootType) :
    findRootSpec items (fuel + 1) i = some (some item) := by
  simp [findRootSpec, hl, ht]

theorem findRootSpec_succ_orphan {items : List WItem} {i : Nat} {item : WItem} (fuel : Nat)
    (hl : lookupItem items i = some item) (ht : ¬ item.itemType = rootType)
    (hp : item.parentId = none) : findRootSpec items (fuel + 1) i = some none := by
  simp [findRootSpec, hl, ht, hp]

theorem findRootSpec_succ_parent {items : List WItem} {i p : Nat} {item : WItem} (fuel : Nat)
    (hl : lookupItem items i = some item) (ht : ¬ item.itemType = rootType)
    (hp : item.parentId = some p) :
    findRootSpec items (fuel + 1) i = findRootSpec items fuel p := by
  simp [findRootSpec, hl, ht, hp]

theorem findRootSpec_mono (items : List WItem) :
    ∀ n m i r, n ≤ m → findRootSpec items n i = some r → findRootSpec items m i = some r := by
  intro n
  induction n with
  | zero =>
    intro m i r _ h
    simp [findRootSpec] at h
  | succ k ih =>
    intro m i r hnm h
    obtain ⟨m', rfl⟩ : ∃ m', m = m' + 1 := ⟨m - 1, by omega⟩
    cases hl : lookupItem items i with
    | none =>
      rw [findRootSpec_succ_absent k hl] at h
      rw [findRootSpec_succ_absent m' hl]
      exact h
    | some item =>
      by_cases ht : item.itemType = rootType
      · rw [findRootSpec_succ_root k hl ht] at h
        rw [findRootSpec_succ_root m' hl ht]
        exact h
      · cases hp : item.parentId with
        | none =>
          rw [findRootSpec_succ_orphan k hl ht hp] at h
          rw [findRootSpec_succ_orphan m' hl ht hp]
          exact h
        | some p =>
          rw [findRootSpec_succ_parent k hl ht hp] at h
          rw [findRootSpec_succ_parent m' hl ht hp]
          exact ih m' p r (by omega) h

theorem findRootSpec_det (items : List WItem) {n m i : Nat} {r r' : Option WItem}
    (h : findRootSpec items n i = some r) (h' : findRootSpec items m i = some r') : r = r' := by
  have h1 := findRootSpec_mono items n (max n m) i r (le_max_left _ _) h
  have h2 := findRootSpec_mono items m (max n m) i r' (le_max_right _ _) h'
  rw [h1] at h2
  exact Option.some_injective _ h2

theorem findRootPbi_succ_hit {memo : Memo} {i : Nat} {r : Option WItem} (items : List WItem)
    (fuel : Nat) (hm0 : memoLookup memo i = some r) :
    findRootPbi items (fuel + 1) i memo = (some r, memo) := by
  simp [findRootPbi, hm0]

theorem findRootPbi_succ_absent {items : List WItem} {memo : Memo} {i : Nat} (fuel : Nat)
    (hm0 : memoLookup memo i = none) (hl : lookupItem items i = none) :
    findRootPbi items (fuel + 1) i memo = (some none, (i, none) :: memo) := by
  simp [findRootPbi, hm0, hl]

theorem findRootPbi_succ_root {items : List WItem} {memo : Memo} {i : Nat} {item : WItem}
    (fuel : Nat) (hm0 : memoLookup memo i = none) (hl : lookupItem items i = some item)
    (ht : item.itemType = rootType) :
    findRootPbi items (fuel + 1) i memo = (some (some item), (i, some item) :: memo) := by
  simp [findRootPbi, hm0, hl, ht]

theorem findRootPbi_succ_orphan {items : List WItem} {memo : Memo} {i : Nat} {item : WItem}
    (fuel : Nat) (hm0 : memoLookup memo i = none) (hl : lookupItem items i = some item)
    (ht : ¬ item.itemType = rootType) (hp : item.parentId = none) :
    findRootPbi items (fuel + 1) i memo = (some none, (i, none) :: memo) := by
  simp [findRootPbi, hm0, hl, ht, hp]

theorem findRootPbi_succ_parent_some {items : List WItem} {memo m : Memo} {i p : Nat}
    {item : WItem} {r : Option WItem} (fuel : Nat) (hm0 : memoLookup memo i = none)
    (hl : lookupItem items i = some item) (ht : ¬ item.itemType = rootType)
    (hp : item.parentId = some p) (hrec : findRootPbi items fuel p memo = (some r, m)) :
    findRootPbi items (fuel + 1) i memo = (some r, (i, r) :: m) := by
  simp [findRootPbi, hm0, hl, ht, hp, hrec]

/-- Agreement of the memoized walk with the memo-free semantics: from a sound
memo, whenever the memo-free walk finishes within the budget, the memoized
walk returns the same answer and leaves the memo sound. -/
theorem findRootPbi_correct (items : List WItem) :
    ∀ (n : Nat) (i : Nat) (memo : Memo) (r : Option WItem), MemoOK items memo →
      findRootSpec items n i = some r →
      (findRootPbi items n i memo).1 = some r ∧ MemoOK items (findRootPbi items n i memo).2 := by
  intro n
  induction n with
  | zero =>
    intro i memo r _ hspec
    simp [findRootSpec] at hspec
  | succ k ih =>
    intro i memo r hm hspec
    cases hm0 : memoLookup memo i with
    | some r' =>
      obtain ⟨m, hmspec⟩ := hm i r' hm0
      obtain rfl : r = r' := findRootSpec_det items hspec hmspec
      rw [findRootPbi_succ_hit items k hm0]
      exact ⟨rfl, hm⟩
    | none =>
      cases hl : lookupItem items i with
      | none =>
        rw [findRootSpec_succ_absent k hl] at hspec
        obtain rfl : (none : Option WItem) = r := Option.some_injective _ hspec
        rw [findRootPbi_succ_absent k hm0 hl]
        exact ⟨rfl, memoOK_cons hm ⟨k + 1, findRootSpec_succ_absent k hl⟩⟩
      | some item =>
        by_cases ht : item.itemType = rootType
        · rw [findRootSpec_succ_root k hl ht] at hspec
          obtain rfl : (some item : Option WItem) = r := Option.some_injective _ hspec
          rw [findRootPbi_succ_root k hm0 hl ht]
          exact ⟨rfl, memoOK_cons hm ⟨k + 1, findRootSpec_succ_root k hl ht⟩⟩
        · cases hp : item.parentId with
          | none =>
            rw [findRootSpec_succ_orphan k hl ht hp] at hspec
            obtain rfl : (none : Option WItem) = r := Option.some_injective _ hspec
            rw [findRootPbi_succ_orphan k hm0 hl ht hp]
            exact ⟨rfl, memoOK_cons hm ⟨k + 1, findRootSpec_succ_orphan k hl ht hp⟩⟩
          | some p =>
            rw [findRootSpec_succ_parent k hl ht hp] at hspec
            obtain ⟨h1, h2⟩ := ih p memo r hm hspec
            rcases hrec : findRootPbi items k p memo with ⟨res, m'⟩
            rw [hrec] at h1 h2
            simp only at h1 h2
            subst h1
            rw [findRootPbi_succ_parent_some k hm0 hl ht hp hrec]
            refine ⟨rfl, memoOK_cons h2 ⟨k + 1, ?_⟩⟩
            rw [findRootSpec_succ_parent k hl ht hp]
            exact hspec

/-- C4: an item of the supplied collection whose type equals the configured
root type resolves to itself, regardless of its parent reference, from any
sound memo state and any positive recursion budget. -/
theorem resolver_self_root (items : List WItem) (i : Nat) (item : WItem) (memo : Memo) (n : Nat)
    (hl : lookupItem items i = some item) (ht : item.itemType = rootType)
    (hm : MemoOK items memo) (hn : 0 < n) :
    (findRootPbi items n i memo).1 = some (some item) := by
  have hspec : findRootSpec items n i = some (some item) := by
    obtain ⟨n', rfl⟩ : ∃ n', n = n' + 1 := ⟨n - 1, by omega⟩
    exact findRootSpec_succ_root n' hl ht
  exact (findRootPbi_correct items n i memo _ hm hspec).1

/-- Witness for C4: a root-typed item with a (dangling) parent reference still
resolves to itself. -/
theorem resolver_self_root_witness :
    lookupItem [⟨1, "Product Backlog Item", some 99, "Root PBI"⟩] 1 =
        some ⟨1, "Product Backlog Item", some 99, "Root PBI"⟩
    ∧ WItem.itemType ⟨1, "Product Backlog Item", some 99, "Root PBI"⟩ = rootType
    ∧ MemoOK [⟨1, "Product Backlog Item", some 99, "Root PBI"⟩] []
    ∧ (0 : Nat) < 1
    ∧ (findRootPbi [⟨1, "Product Backlog Item", some 99, "Root PBI"⟩] 1 1 []).1 =
        some (some ⟨1, "Product Backlog Item", some 99, "Root PBI"⟩) :=
  ⟨by decide, by decide, memoOK_nil _, by decide,
    resolver_self_root [⟨1, "Product Backlog Item", some 99, "Root PBI"⟩] 1
      ⟨1, "Product Backlog Item", some 99, "Root PBI"⟩ [] 1 (by decide) (by decide)
      (memoOK_nil _) (by decide)⟩

/-- A walk that ends without meeting the root type: it starts at an id absent
from the collection (in particular a dangling parent reference), at a
non-root item without parent, or at a non-root item whose parent's walk ends
without meeting the root type. -/
inductive EndsWithoutRoot (items : List WItem) : Nat → Prop where
  | absent (i : Nat) : lookupItem items i = none → EndsWithoutRoot items i
  | orphan (i : Nat) (item : WItem) : lookupItem items i = some item →
      ¬ item.itemType = rootType → item.parentId = none → EndsWithoutRoot items i
  | step (i p : Nat) (item : WItem) : lookupItem items i = some item →
      ¬ item.itemType = rootType → item.parentId = some p → EndsWithoutRoot items p →
      EndsWithoutRoot items i

theorem endsWithoutRoot_spec {items : List WItem} :
    ∀ {i : Nat}, EndsWithoutRoot items i → ∃ n, findRootSpec items n i = some none := by
  intro i h
  induction h with
  | absent i hl => exact ⟨1, findRootSpec_succ_absent 0 hl⟩
  | orphan i item hl ht hp => exact ⟨1, findRootSpec_succ_orphan 0 hl ht hp⟩
  | step i p item hl ht hp _ ih =>
    obtain ⟨n, hn⟩ := ih
    refine ⟨n + 1, ?_⟩
    rw [findRootSpec_succ_parent n hl ht hp]
    exact hn

/-- C5: when an item's ancestor walk ends without meeting the root type —
at a non-root item without parent, or at a parent id absent from the supplied
collection — the resolution completes normally (no budget exhaustion) and
yields null, not the item itself. -/
theorem resolver_null_cases (items : List WItem) (i : Nat) (memo : Memo)
    (h : EndsWithoutRoot items i) (hm : MemoOK items memo) :
    ∃ n, ∀ m, n ≤ m → (findRootPbi items m i memo).1 = some none := by
  obtain ⟨n, hn⟩ := endsWithoutRoot_spec h
  exact ⟨n, fun m hnm =>
    (findRootPbi_correct items m i memo none hm (findRootSpec_mono items n m i none hnm hn)).1⟩

/-- Witness for C5: a non-root task whose parent id 5 is absent from the
collection resolves to null. -/
theorem resolver_null_cases_witness :
    EndsWithoutRoot [⟨1, "Task", some 5, "Child"⟩] 1
    ∧ MemoOK [⟨1, "Task", some 5, "Child"⟩] []
    ∧ ∃ n, ∀ m, n ≤ m → (findRootPbi [⟨1, "Task", some 5, "Child"⟩] m 1 []).1 = some none :=
  ⟨EndsWithoutRoot.step 1 5 ⟨1, "Task", some 5, "Child"⟩ (by decide) (by decide) rfl
      (EndsWithoutRoot.absent 5 (by decide)),
    memoOK_nil _,
    resolver_null_cases [⟨1, "Task", some 5, "Child"⟩] 1 []
      (EndsWithoutRoot.step 1 5 ⟨1, "Task", some 5, "Child"⟩ (by decide) (by decide) rfl
        (EndsWithoutRoot.absent 5 (by decide)))
      (memoOK_nil _)⟩

/-- C10: on a collection whose parent graph is acyclic — witnessed by a rank
function that strictly drops along every parent link — the memoized walk
terminates for every starting id and every sound memo: some finite recursion
budget makes it return an answer. -/
theorem resolver_terminates (items : List WItem) (d : Nat → Nat)
    (hd : ∀ i p item, lookupItem items i = some item → item.parentId = some p → d p < d i)
    (i : Nat) (memo : Memo) (hm : MemoOK items memo) :
    ∃ n, ((findRootPbi items n i memo).1).isSome := by
  have hspec : ∀ k j, d j = k → ∃ n r, findRootSpec items n j = some r := by
    intro k
    induction k using Nat.strong_induction_on with
    | _ k ih =>
      intro j hk
      cases hl : lookupItem items j with
      | none => exact ⟨1, none, findRootSpec_succ_absent 0 hl⟩
      | some item =>
        by_cases ht : item.itemType = rootType
        · exact ⟨1, some item, findRootSpec_succ_root 0 hl ht⟩
        · cases hp : item.parentId with
          | none => exact ⟨1, none, findRootSpec_succ_orphan 0 hl ht hp⟩
          | some p =>
            obtain ⟨n, r, hn⟩ := ih (d p) (by rw [← hk]; exact hd j p item hl hp) p rfl
            refine ⟨n + 1, r, ?_⟩
            rw [findRootSpec_succ_parent n hl ht hp]
            exact hn
  obtain ⟨n, r, hn⟩ := hspec (d i) i rfl
  refine ⟨n, ?_⟩
  rw [(findRootPbi_correct items n i memo r hm hn).1]
  rfl

/-- Witness for C10 on a two-item chain (task 1 under root 2) with the rank
function `2 - id`. -/
theorem resolver_terminates_witness :
    (∀ i p item,
        lookupItem [⟨1, "Task", some 2, "Child"⟩, ⟨2, "Product Backlog Item", none, "Root"⟩] i =
            some item →
          item.parentId = some p → 2 - p < 2 - i)
    ∧ MemoOK [⟨1, "Task", some 2, "Child"⟩, ⟨2, "Product Backlog Item", none, "Root"⟩] []
    ∧ ∃ n,
        ((findRootPbi [⟨1, "Task", some 2, "Child"⟩, ⟨2, "Product Backlog Item", none, "Root"⟩]
              n 1 []).1).isSome := by
  have hd : ∀ i p item,
      lookupItem [⟨1, "Task", some 2, "Child"⟩, ⟨2, "Product Backlog Item", none, "Root"⟩] i =
          some item →
        item.parentId = some p → 2 - p < 2 - i := by
    intro i p item hl hp
    have hl' : List.find? (fun it => it.id == i)
        [⟨1, "Task", some 2, "Child"⟩, ⟨2, "Product Backlog Item", none, "Root"⟩] =
          some item := hl
    have hmem := List.mem_of_find?_eq_some hl'
    have hid := List.find?_some hl'
    rw [List.mem_cons, List.mem_singleton] at hmem
    rcases hmem with rfl | rfl
    · obtain rfl : 1 = i := by simpa using hid
      obtain rfl : p = 2 := by simpa using hp.symm
      decide
    · simp at hp
  exact ⟨hd, memoOK_nil _,
    resolver_terminates
      [⟨1, "Task", some 2, "Child"⟩, ⟨2, "Product Backlog Item", none, "Root"⟩]
      (fun j => 2 - j) hd 1 [] (memoOK_nil _)⟩

/-- Resolved-root lookup used by the metric reductions:
`hierarchyMap.idMap.get(item.id) || item.id`. -/
def rootIdOf (idMap : List (Nat × Nat)) (i : Nat) : Nat :=
  ((idMap.find? (fun e => e.1 == i)).map (fun e => e.2)).getD i

/-- The root id the hierarchy-mapping pass stores for an item: the resolved
root's id, or the item's own id on a null resolution (the
`group by itself` fallback of the `idMap` construction). -/
def rootIdFallback (item : WItem) : Option WItem → Nat
  | some root => root.id
  | none => item.id

/-- The average's rounding: `parseFloat(x.toFixed(2))`, i.e. the value rounded
at two decimals (ties towards the larger value, which on the non-negative
averages used here is `round`). -/
def roundFixed2 (q : ℚ) : ℚ := (round (q * 100) : ℤ) / 100

/-- Result record of the `globalMetrics` reduction. -/
structure GlobalMetrics where
  totalItems : Nat
  totalInvestedHours : ℚ
  avgHoursPerItem : ℚ
deriving DecidableEq

/-- The `globalMetrics` reduction over the filtered items and the invested
hours of their summaries (`taskSummaries.values()`, one per filtered item):
count the distinct root ids (`Set` of `idMap.get(item.id) || item.id`), sum
invested hours without deduplication, and average with two-decimal rounding
when any root exists. -/
def globalMetrics (idMap : List (Nat × Nat)) (filteredItems : List WItem)
    (summaries : List ℚ) : GlobalMetrics :=
  let uniqueRootItems := (filteredItems.map (fun item => rootIdOf idMap item.id)).dedup
  let totalItems := uniqueRootItems.length
  let totalInvestedHours := summaries.sum
  let avgHoursPerItem :=
    if 0 < totalItems then roundFixed2 (totalInvestedHours / (totalItems : ℚ)) else 0
  ⟨totalItems, totalInvestedHours, avgHoursPerItem⟩

/-- Filtered items of the C6 counterexample: three orphan tasks with distinct
ids (each resolving to null, hence grouped under its own id). -/
def c6CexFiltered : List WItem :=
  [⟨1, "Task", none, "a"⟩, ⟨2, "Task", none, "b"⟩, ⟨3, "Task", none, "c"⟩]

/-- C6 counterexample: with three distinct roots and invested hours 1, 0, 0,
the computed average is the rounded 0.33, not `totalInvested / uniqueRootCount
= 1/3`. -/
theorem global_metrics_counterexample :
    ¬ ((globalMetrics [] c6CexFiltered [1, 0, 0]).avgHoursPerItem =
        (globalMetrics [] c6CexFiltered [1, 0, 0]).totalInvestedHours /
          ((globalMetrics [] c6CexFiltered [1, 0, 0]).totalItems : ℚ)) := by
  intro hcontra
  have h1 : (globalMetrics [] c6CexFiltered [1, 0, 0]).totalItems = 3 := by decide
  have h2 : (globalMetrics [] c6CexFiltered [1, 0, 0]).totalInvestedHours = 1 := by
    show ([1, 0, 0] : List ℚ).sum = 1
    norm_num
  have h3 : (globalMetrics [] c6CexFiltered [1, 0, 0]).avgHoursPerItem =
      (if 0 < (globalMetrics [] c6CexFiltered [1, 0, 0]).totalItems then
        roundFixed2 ((globalMetrics [] c6CexFiltered [1, 0, 0]).totalInvestedHours /
          ((globalMetrics [] c6CexFiltered [1, 0, 0]).totalItems : ℚ))
      else 0) := rfl
  rw [h1, h2] at h3
  norm_num at h3
  rw [h3, h1, h2] at hcontra
  norm_num [roundFixed2, round_eq] at hcontra

/-- C6 (amended): relative to a resolution map consistent with the memo-free
walk, uniqueRootCount is the number of distinct resolved root ids (a null
resolution counting under the item's own id), totalInvested is the
non-deduplicated sum of the invested summaries, and the average is
totalInvested / uniqueRootCount rounded to two decimals (0 when no roots). -/
theorem global_metrics_spec (items : List WItem) (idMap : List (Nat × Nat))
    (filteredItems : List WItem) (summaries : List ℚ) (specRes : WItem → Option WItem)
    (hres : ∀ item ∈ filteredItems, ∃ n, findRootSpec items n item.id = some (specRes item))
    (hmap : ∀ item ∈ filteredItems,
      rootIdOf idMap item.id = rootIdFallback item (specRes item)) :
    (globalMetrics idMap filteredItems summaries).totalItems =
        ((filteredItems.map (fun item => rootIdFallback item (specRes item))).toFinset).card
    ∧ (globalMetrics idMap filteredItems summaries).totalInvestedHours = summaries.sum
    ∧ (globalMetrics idMap filteredItems summaries).avgHoursPerItem =
        (if 0 < (globalMetrics idMap filteredItems summaries).totalItems then
          roundFixed2 (summaries.sum /
            ((globalMetrics idMap filteredItems summaries).totalItems : ℚ))
        else 0) := by
  have hcongr : filteredItems.map (fun item => rootIdOf idMap item.id) =
      filteredItems.map (fun item => rootIdFallback item (specRes item)) :=
    List.map_congr_left hmap
  refine ⟨?_, rfl, rfl⟩
  show ((filteredItems.map (fun item => rootIdOf idMap item.id)).dedup).length = _
  rw [hcongr, List.card_toFinset]

/-- Items of the C6 witness: two tasks under one root backlog item. -/
def c6Items : List WItem :=
  [⟨1, "Task", some 10, "Tarea 1"⟩, ⟨2, "Task", some 10, "Tarea 2"⟩,
    ⟨10, "Product Backlog Item", none, "PBI"⟩]

/-- The two filtered task items of the C6 witness. -/
def c6Filtered : List WItem :=
  [⟨1, "Task", some 10, "Tarea 1"⟩, ⟨2, "Task", some 10, "Tarea 2"⟩]

/-- Resolution map of the C6 witness. -/
def c6IdMap : List (Nat × Nat) := [(1, 10), (2, 10), (10, 10)]

/-- The shared root of the C6 witness. -/
def c6Root : WItem := ⟨10, "Product Backlog Item", none, "PBI"⟩

/-- Witness for C6 (amended), realizing the spec's example: two task items
sharing one resolved root with invested hours 5 and 7 give uniqueRootCount 1,
totalInvested 12 and average 12. -/
theorem global_metrics_spec_witness :
    (∀ item ∈ c6Filtered, ∃ n, findRootSpec c6Items n item.id = some (some c6Root))
    ∧ (∀ item ∈ c6Filtered, rootIdOf c6IdMap item.id = rootIdFallback item (some c6Root))
    ∧ ((globalMetrics c6IdMap c6Filtered [5, 7]).totalItems =
          ((c6Filtered.map (fun item => rootIdFallback item (some c6Root))).toFinset).card
        ∧ (globalMetrics c6IdMap c6Filtered [5, 7]).totalInvestedHours = ([5, 7] : List ℚ).sum
        ∧ (globalMetrics c6IdMap c6Filtered [5, 7]).avgHoursPerItem =
            (if 0 < (globalMetrics c6IdMap c6Filtered [5, 7]).totalItems then
              roundFixed2 (([5, 7] : List ℚ).sum /
                ((globalMetrics c6IdMap c6Filtered [5, 7]).totalItems : ℚ))
            else 0))
    ∧ (globalMetrics c6IdMap c6Filtered [5, 7]).totalItems = 1
    ∧ (globalMetrics c6IdMap c6Filtered [5, 7]).totalInvestedHours = 12
    ∧ (globalMetrics c6IdMap c6Filtered [5, 7]).avgHoursPerItem = 12 := by
  have hres : ∀ item ∈ c6Filtered, ∃ n, findRootSpec c6Items n item.id = some (some c6Root) := by
    intro item him
    simp only [c6Filtered, List.mem_cons, List.not_mem_nil, or_false] at him
    rcases him with rfl | rfl
    · exact ⟨2, by decide⟩
    · exact ⟨2, by decide⟩
  have hmap : ∀ item ∈ c6Filtered,
      rootIdOf c6IdMap item.id = rootIdFallback item (some c6Root) := by decide
  have hmain := global_metrics_spec c6Items c6IdMap c6Filtered [5, 7]
    (fun _ => some c6Root) hres hmap
  have h1 : (globalMetrics c6IdMap c6Filtered [5, 7]).totalItems = 1 := by decide
  have h2 : (globalMetrics c6IdMap c6Filtered [5, 7]).totalInvestedHours = 12 := by
    show ([5, 7] : List ℚ).sum = 12
    norm_num
  refine ⟨hres, hmap, hmain, h1, h2, ?_⟩
  rw [hmain.2.2, h1]
  norm_num [roundFixed2, round_eq]

end GestorProyectos
